import Mathlib

/-!
Verification of the leaderboard benchmarking scripts.

The development shallowly embeds the two scripts of the repository:

* `populate_data.py` (namespace `Populate`): synthetic generation of
  unique usernames, of score populations shaped by a statistical
  distribution, and of the leaderboard rows inserted for those scores.
* `performance_test.py` (namespace `PerfTest`): the two ranking queries
  (counting strategy and window-function strategy), the timing-sample
  collection loop with per-trial failure handling, the warm-up phase,
  and the descriptive-statistics computation `_calculate_statistics`.

Randomness is modelled by explicit streams of pre-drawn values: a
structure of functions stands for the random generator, so every
function of the embedding is deterministic in the generator argument.
Python floats are embedded as rationals; the standard deviation, which
the source obtains through a square root, lives in `ℝ`.
-/

namespace Populate

/-- Stream of random draws used by `generate_usernames`.
`pickBase i` models `random.choice(prefixes)` at attempt `i`,
`pickTail i` models `random.choice(suffixes)` at attempt `i`, and the
three numeric streams model the `random.randint` calls of the three
username templates. -/
structure NameRng where
  pickBase : Nat → String
  pickTail : Nat → String
  num1 : Nat → Nat
  num2 : Nat → Nat
  num3 : Nat → Nat

/-- One candidate username, following the three-way template mix of
`generate_usernames`: the branch is selected by `attempts % 3`, and the
third template embeds the current size of the accumulated set. -/
def candidate (rng : NameRng) (attempts : Nat) (size : Nat) : String :=
  if attempts % 3 = 0 then rng.pickBase attempts ++ toString (rng.num1 attempts)
  else if attempts % 3 = 1 then
    rng.pickBase attempts ++ rng.pickTail attempts ++ toString (rng.num2 attempts)
  else "User" ++ toString (size + 1) ++ "_" ++ toString (rng.num3 attempts)

/-- The candidate-admission loop of `generate_usernames`: while fewer
than `count` names are collected and attempts remain below the budget,
draw a candidate and admit it when it is not already present.  The
Python set of usernames is embedded as a duplicate-free list; `fuel` is
the remaining attempt budget `max_attempts - attempts`.  Returns the
collected names together with the number of attempts consumed. -/
def username_loop (rng : NameRng) (count : Nat) :
    Nat → Nat → List String → List String × Nat
  | 0, attempts, usernames => (usernames, attempts)
  | fuel + 1, attempts, usernames =>
    if usernames.length < count then
      if candidate rng (attempts + 1) usernames.length ∈ usernames then
        username_loop rng count fuel (attempts + 1) usernames
      else
        username_loop rng count fuel (attempts + 1)
          (candidate rng (attempts + 1) usernames.length :: usernames)
    else (usernames, attempts)

/-- `generate_usernames`: run the bounded-retry loop with budget
`count * 10`; raise (here: return `.error`) when fewer than `count`
unique names were produced. -/
def generate_usernames (rng : NameRng) (count : Nat) : Except String (List String) :=
  let r := username_loop rng count (count * 10) 0 []
  if r.1.length < count then
    .error "Impossibile generare username univoci"
  else .ok r.1

/-- Streams of pre-drawn random values used by `generate_scores`:
`normalDraw` stands for the entries of `np.random.normal(1000, 300, count)`,
`expBase` for `np.random.exponential(500, count)`,
`uniformDraw` for `np.random.uniform(0, 5000, count)`,
`expDraw` for `np.random.exponential(800, count)`,
`bonus` for the successive `random.randint(5000, 15000)` draws, and
`sampleIdx n k` for the index list chosen by `random.sample(range(n), k)`. -/
structure ScoreRng where
  normalDraw : Nat → ℚ
  expBase : Nat → ℚ
  uniformDraw : Nat → ℚ
  expDraw : Nat → ℚ
  bonus : Nat → ℤ
  sampleIdx : Nat → Nat → List Nat

/-- `random.sample(range(n), k)` of the Python standard library: yields
the chosen indices, and raises `ValueError` (here: `.error`) when `k`
exceeds the population size `n`. -/
def random_sample (rng : ScoreRng) (n k : Nat) : Except String (List Nat) :=
  if k ≤ n then .ok (rng.sampleIdx n k)
  else .error "Sample larger than population or is negative"

/-- The pro-player loop of the `skewed` branch: for each chosen index,
add the next `random.randint(5000, 15000)` bonus to the base score at
that index. -/
def add_pro_bonuses (rng : ScoreRng) : List ℚ → List Nat → Nat → List ℚ
  | base, [], _ => base
  | base, idx :: rest, j =>
    add_pro_bonuses rng (base.set idx (base.getD idx 0 + (rng.bonus j : ℚ))) rest (j + 1)

/-- `scores.astype(int)` of numpy: truncation of the sampled value
toward zero. -/
def astype_int (q : ℚ) : ℤ := Int.tdiv q.num q.den

/-- The statistics print block that `generate_scores` runs on the
converted score array before returning it: `np.min` (and `np.max`) on a
zero-size array raise `ValueError`, so the block fails on an empty
score list and otherwise leaves the scores untouched. -/
def print_score_stats (scores : List ℤ) : Except String (List ℤ) :=
  if scores.isEmpty then
    .error "zero-size array to reduction operation minimum which has no identity"
  else .ok scores

/-- `generate_scores`: draw `count` raw values shaped by the requested
distribution (for `skewed`, additionally perturb `max(1, count / 100)`
sampled indices by a pro bonus), truncate every value to an integer and
clamp it to zero from below, as in `np.maximum(0, scores.astype(int))`,
then print the score statistics — a step that itself raises on a
zero-size array.  An unrecognized distribution name fails before any
sampling. -/
def generate_scores (rng : ScoreRng) (count : Nat) (distribution : String) :
    Except String (List ℤ) :=
  (if distribution = "normal" then
    .ok ((List.range count).map rng.normalDraw)
  else if distribution = "skewed" then
    let base := (List.range count).map rng.expBase
    let num_pros := max 1 (count / 100)
    (random_sample rng count num_pros).map
      (fun pro_indices => add_pro_bonuses rng base pro_indices 0)
  else if distribution = "uniform" then
    .ok ((List.range count).map rng.uniformDraw)
  else if distribution = "exponential" then
    .ok ((List.range count).map rng.expDraw)
  else
    (.error ("Distribuzione non supportata") : Except String (List ℚ))
  ).bind (fun scores => print_score_stats (scores.map (fun q => max 0 (astype_int q))))

/-- The row-construction loop of `insert_leaderboard_batch`: the i-th
score (0-based) is paired with user id `i + 1` and a play count drawn
by `random.randint(1, 100)`; `games i` models that draw for row `i`. -/
def insert_leaderboard_rows (games : Nat → Nat) (scores : List ℤ) :
    List (Nat × ℤ × Nat) :=
  scores.enum.map (fun p => (p.1 + 1, p.2, games p.1))

/-- A fixed generator stream, used to evaluate the embedding on
concrete inputs. -/
def zeroScoreRng : ScoreRng :=
  { normalDraw := fun _ => 0
    expBase := fun _ => 0
    uniformDraw := fun _ => 0
    expDraw := fun _ => 0
    bonus := fun _ => 0
    sampleIdx := fun _ _ => [] }

/-- A fixed name-generator stream, used to evaluate the embedding on
concrete inputs. -/
def constNameRng : NameRng :=
  { pickBase := fun _ => "Player"
    pickTail := fun _ => "X"
    num1 := fun a => a
    num2 := fun a => a
    num3 := fun a => a }

end Populate

namespace PerfTest

/-- One joined row of the `leaderboard` and `users` tables: the owning
user id, the current score, and the activity flag used by the ranking
queries. -/
structure Entity where
  user_id : Nat
  score : ℤ
  is_active : Bool
deriving DecidableEq

/-- Number of active entities whose score strictly exceeds `s`; the
correlated subquery
`SELECT COUNT(*) FROM leaderboard l2 JOIN users u2 ... WHERE u2.is_active AND l2.score > l.score`
of `test_user_ranking_performance`. -/
def activeGreaterCount (pop : List Entity) (s : ℤ) : Nat :=
  (pop.filter (fun e => e.is_active && decide (s < e.score))).length

/-- The counting-strategy rank query of `test_user_ranking_performance`:
look up the requested active user and report `COUNT(*) + 1` over the
active entities with strictly greater score; no row is returned when
the user is absent or inactive. -/
def rank_by_count (pop : List Entity) (uid : Nat) : Option Nat :=
  (pop.find? (fun e => e.user_id == uid && e.is_active)).map
    (fun e => 1 + activeGreaterCount pop e.score)

/-- The ordering of `ORDER BY l.score DESC`: descending score. -/
def byScoreDesc (a b : Entity) : Prop := b.score ≤ a.score

instance : DecidableRel byScoreDesc :=
  fun a b => inferInstanceAs (Decidable (b.score ≤ a.score))

instance : IsTotal Entity byScoreDesc := ⟨fun a b => le_total b.score a.score⟩

instance : IsTrans Entity byScoreDesc :=
  ⟨fun _ _ _ hab hbc => le_trans hbc hab⟩

/-- The single descending pass of `RANK() OVER (ORDER BY l.score DESC)`
after the first row: `prev` is the score of the previous row, `prevRank`
its rank, and `pos` the number of rows already emitted.  A row tying the
previous row shares its rank; otherwise the rank restarts at the row
number `pos + 1`. -/
def rank_pass : ℤ → Nat → Nat → List Entity → List (Entity × Nat)
  | _, _, _, [] => []
  | prev, prevRank, pos, e :: rest =>
    let r := if e.score = prev then prevRank else pos + 1
    (e, r) :: rank_pass e.score r (pos + 1) rest

/-- Ranks assigned by `RANK() OVER (ORDER BY l.score DESC)` to a list
already sorted by descending score: the first row ranks 1, later rows
follow the tie-sharing pass `rank_pass`. -/
def window_ranks (l : List Entity) : List (Entity × Nat) :=
  match l with
  | [] => []
  | e :: rest => (e, 1) :: rank_pass e.score 1 1 rest

/-- The window-strategy rank query of
`test_user_ranking_with_window_function`: rank every active entity via
one descending-score pass over the whole population, then look up the
requested user id in the ranked CTE. -/
def rank_by_window (pop : List Entity) (uid : Nat) : Option Nat :=
  let ranked := window_ranks (List.insertionSort byScoreDesc
    (pop.filter (fun e => e.is_active)))
  (ranked.find? (fun p => p.1.user_id == uid)).map (fun p => p.2)

/-- The tie population of the spec's example: a 600-scorer, two
500-scorers, and a 400-scorer, all active. -/
def examplePop : List Entity :=
  [⟨1, 600, true⟩, ⟨2, 500, true⟩, ⟨3, 500, true⟩, ⟨4, 400, true⟩]

/-- `min(times)` of Python over a non-empty list (0 on the empty list,
which the caller excludes). -/
def listMin : List ℚ → ℚ
  | [] => 0
  | t :: ts => ts.foldl min t

/-- `max(times)` of Python over a non-empty list. -/
def listMax : List ℚ → ℚ
  | [] => 0
  | t :: ts => ts.foldl max t

/-- `statistics.mean(times)`: arithmetic mean. -/
def mean_of (times : List ℚ) : ℚ := times.sum / times.length

/-- The ascending sort shared by `statistics.median` and
`np.percentile`. -/
def sortedTimes (times : List ℚ) : List ℚ :=
  List.insertionSort (fun a b => a ≤ b) times

/-- `statistics.median(times)`: the middle order statistic for odd
sample sizes, the mean of the two middle order statistics for even
ones. -/
def median_of (times : List ℚ) : ℚ :=
  let s := sortedTimes times
  let n := s.length
  if n % 2 = 1 then s.getD (n / 2) 0
  else (s.getD (n / 2 - 1) 0 + s.getD (n / 2) 0) / 2

/-- The sample variance with `n - 1` divisor underlying
`statistics.stdev(times)` (meaningful only for `n > 1`, which the
caller guards). -/
def variance_of (times : List ℚ) : ℚ :=
  (times.map (fun t => (t - mean_of times) ^ 2)).sum / ((times.length : ℚ) - 1)

/-- Linear interpolation between order statistics at virtual index `h`,
as in `np.percentile` with the default method: the value at the floor
index plus the fractional part times the gap to the ceiling index. -/
def interp (s : List ℚ) (h : ℚ) : ℚ :=
  s.getD (⌊h⌋).toNat 0 +
    (h - ((⌊h⌋).toNat : ℚ)) * (s.getD (⌈h⌉).toNat 0 - s.getD (⌊h⌋).toNat 0)

/-- `np.percentile(times, q)`: sort, then interpolate linearly at the
virtual index `(n - 1) * q / 100`. -/
def percentile (times : List ℚ) (q : ℚ) : ℚ :=
  interp (sortedTimes times) (((times.length : ℚ) - 1) * q / 100)

/-- The statistics dictionary built by `_calculate_statistics` for a
non-empty sample. -/
structure OperationStats where
  operation : String
  sample_size : Nat
  min_ms : ℚ
  max_ms : ℚ
  mean_ms : ℚ
  median_ms : ℚ
  stdev_ms : ℝ
  p95_ms : ℚ
  p99_ms : ℚ
  ops_per_second : Option ℚ

/-- `_calculate_statistics(times, operation_name)`: the error
dictionary (here the `.error` variant) on an empty sample, otherwise
all descriptive statistics; the standard deviation is 0 for a single
sample and `float('inf')` for the throughput is modelled as `none`. -/
noncomputable def _calculate_statistics (times : List ℚ) (operation_name : String) :
    Except String OperationStats :=
  if times.isEmpty then .error "Nessun dato disponibile"
  else .ok
    { operation := operation_name
      sample_size := times.length
      min_ms := listMin times
      max_ms := listMax times
      mean_ms := mean_of times
      median_ms := median_of times
      stdev_ms := if 1 < times.length then Real.sqrt ((variance_of times : ℚ) : ℝ) else 0
      p95_ms := percentile times 95
      p99_ms := percentile times 99
      ops_per_second := if 0 < mean_of times then some (1000 / mean_of times) else none }

/-- The per-operation statistics assembly of `run_complete_test_suite`:
each benchmarked operation contributes the statistics of its own
timing-sample sequence. -/
noncomputable def run_suite (ops : List (String × List ℚ)) :
    List (String × Except String OperationStats) :=
  ops.map (fun p => (p.1, _calculate_statistics p.2 p.1))

/-- In-memory state of the tester: the external database state and the
per-operation timing-sample sequences collected so far. -/
structure TesterState (σ : Type) where
  db : σ
  samples : List (String × List ℚ)

/-- One warm-up query: execute and commit; on an exception roll the
transaction back, leaving the database state unchanged.  `exec`
models the provider: `none` is a raised exception. -/
def run_warm_up_query {σ : Type} (exec : String → σ → Option σ) (q : String) (s : σ) : σ :=
  match exec q s with
  | some s' => s'
  | none => s

/-- The fixed representative read queries of `warm_up_queries`. -/
def warmUpQueryList : List String :=
  ["SELECT COUNT(*) FROM leaderboard",
   "SELECT * FROM leaderboard ORDER BY score DESC LIMIT 10",
   "SELECT user_id, score FROM leaderboard WHERE user_id = 1"]

/-- `warm_up_queries(iterations)`: run the fixed warm-up reads
`iterations` times against the database, discarding results and
absorbing errors; only the database component of the tester state is
touched. -/
def warm_up_queries {σ : Type} (exec : String → σ → Option σ) (iterations : Nat)
    (st : TesterState σ) : TesterState σ :=
  (List.range iterations).foldl
    (fun acc _ =>
      warmUpQueryList.foldl
        (fun a q => { a with db := run_warm_up_query exec q a.db }) acc)
    st

/-- The timed-trial loop shared by the benchmark functions: for each
trial index, run the operation on the current database state; a
successful trial commits the new state and appends its duration, a
failed trial rolls back (keeping the previous state) and appends
nothing.  Returns the recorded durations, the final state, and the
number of failed trials. -/
def run_trials {σ : Type} (step : Nat → σ → Option (ℚ × σ)) :
    List Nat → σ → List ℚ → Nat → List ℚ × σ × Nat
  | [], s, times, failures => (times, s, failures)
  | i :: rest, s, times, failures =>
    match step i s with
    | some (t, s') => run_trials step rest s' (times ++ [t]) failures
    | none => run_trials step rest s times (failures + 1)

/-- One benchmark function: run `iterations` trials from the initial
state with an empty duration list. -/
def test_operation {σ : Type} (step : Nat → σ → Option (ℚ × σ)) (iterations : Nat)
    (s0 : σ) : List ℚ × σ × Nat :=
  run_trials step (List.range iterations) s0 [] 0

/-- The per-operation benchmark-and-summarize pipeline of
`run_complete_test_suite`, with each operation driven by its own trial
oracle. -/
noncomputable def run_ops {σ : Type} (ops : List (String × (Nat → σ → Option (ℚ × σ))))
    (iterations : Nat) (s0 : σ) : List (String × Except String OperationStats) :=
  ops.map (fun p => (p.1, _calculate_statistics (test_operation p.2 iterations s0).1 p.1))

/-- The valid-id-range computation shared by the benchmark functions:
the upper test bound is `min(max_user_id, user_sample)`, replaced by
the full `max_user_id` when it falls below `min_user_id`. -/
def max_test_user (min_user_id max_user_id user_sample : ℤ) : ℤ :=
  let m := min max_user_id user_sample
  if m < min_user_id then max_user_id else m

/-- The per-trial input selection of the benchmark functions: reject an
empty range, then draw `random.randint(min_user_id, max_test_user)`;
`randint lo hi` models the draw. -/
def pick_trial_user (randint : ℤ → ℤ → ℤ) (min_user_id max_user_id user_sample : ℤ) :
    Except String ℤ :=
  let mt := max_test_user min_user_id max_user_id user_sample
  if min_user_id > mt then .error "Range invalido"
  else .ok (randint min_user_id mt)

end PerfTest

/-! ## Properties of the data generator -/

namespace Populate

/-- The admission loop keeps the accumulated name list duplicate-free
and never longer than `count`, and consumes at most `fuel` further
attempts. -/
lemma username_loop_invariant (rng : NameRng) (count : Nat) :
    ∀ (fuel attempts : Nat) (usernames : List String),
      usernames.Nodup → usernames.length ≤ count →
      (username_loop rng count fuel attempts usernames).1.Nodup ∧
      (username_loop rng count fuel attempts usernames).1.length ≤ count ∧
      (username_loop rng count fuel attempts usernames).2 ≤ attempts + fuel
  | 0, attempts, usernames, hnd, hle => by
    exact ⟨hnd, hle, Nat.le_add_right _ _⟩
  | fuel + 1, attempts, usernames, hnd, hle => by
    rw [username_loop]
    by_cases h : usernames.length < count
    · rw [if_pos h]
      by_cases hmem : candidate rng (attempts + 1) usernames.length ∈ usernames
      · rw [if_pos hmem]
        have ih := username_loop_invariant rng count fuel (attempts + 1) usernames hnd hle
        exact ⟨ih.1, ih.2.1, by omega⟩
      · rw [if_neg hmem]
        have hnd' : (candidate rng (attempts + 1) usernames.length :: usernames).Nodup :=
          List.nodup_cons.mpr ⟨hmem, hnd⟩
        have hle' : (candidate rng (attempts + 1) usernames.length :: usernames).length ≤ count := by
          simp only [List.length_cons]
          omega
        have ih := username_loop_invariant rng count fuel (attempts + 1) _ hnd' hle'
        exact ⟨ih.1, ih.2.1, by omega⟩
    · rw [if_neg h]
      exact ⟨hnd, hle, Nat.le_add_right _ _⟩

/-- C4: `generate_usernames` either returns exactly `count`
pairwise-distinct names or fails with the generation-exhausted error;
it never returns a short or duplicate-containing list, and the loop
consumes at most `count * 10` candidate draws. -/
theorem generate_usernames_exact (rng : NameRng) (count : Nat) :
    (∀ l, generate_usernames rng count = .ok l → l.length = count ∧ l.Nodup) ∧
    (username_loop rng count (count * 10) 0 []).2 ≤ count * 10 := by
  have h := username_loop_invariant rng count (count * 10) 0 []
    List.nodup_nil (by simp)
  constructor
  · intro l hl
    by_cases hlen : (username_loop rng count (count * 10) 0 []).1.length < count
    · simp only [generate_usernames, if_pos hlen] at hl
      exact Except.noConfusion hl
    · simp only [generate_usernames, if_neg hlen] at hl
      cases hl
      exact ⟨Nat.le_antisymm h.2.1 (Nat.not_lt.mp hlen), h.1⟩
  · simpa using h.2.2

/-- `generate_usernames` evaluated on a concrete generator stream:
it succeeds with exactly two distinct names. -/
theorem generate_usernames_exact_witness :
    (["User2_2", "PlayerX1"] : List String).length = 2 ∧
      (["User2_2", "PlayerX1"] : List String).Nodup :=
  (generate_usernames_exact constNameRng 2).1 ["User2_2", "PlayerX1"] (by rfl)

/-- The pro-bonus loop leaves the length of the score list unchanged. -/
lemma add_pro_bonuses_length (rng : ScoreRng) :
    ∀ (idxs : List Nat) (base : List ℚ) (j : Nat),
      (add_pro_bonuses rng base idxs j).length = base.length
  | [], _, _ => rfl
  | idx :: rest, base, j => by
    rw [add_pro_bonuses, add_pro_bonuses_length rng rest, List.length_set]

/-- Every value surviving `np.maximum(0, scores.astype(int))` is
non-negative. -/
lemma clamp_nonneg (l : List ℚ) :
    ∀ v ∈ l.map (fun q => max 0 (astype_int q)), 0 ≤ v := by
  intro v hv
  obtain ⟨q, _, rfl⟩ := List.mem_map.mp hv
  exact le_max_left 0 _

/-- The statistics print block succeeds on every non-empty score
list. -/
lemma print_score_stats_ok (scores : List ℤ) (h : scores ≠ []) :
    print_score_stats scores = .ok scores := by
  simp only [print_score_stats, List.isEmpty_eq_false.mpr h, Bool.false_eq_true, if_false]

/-- For a positive count, the statistics print block succeeds on the
converted draws of any sampling stream. -/
lemma stream_branch_ok (count : Nat) (hc : 1 ≤ count) (f : Nat → ℚ) :
    print_score_stats (((List.range count).map f).map (fun q => max 0 (astype_int q))) =
      .ok (((List.range count).map f).map (fun q => max 0 (astype_int q))) := by
  apply print_score_stats_ok
  intro h0
  have hlen := congrArg List.length h0
  simp at hlen
  omega

/-- C5: for every supported distribution and every `count ≥ 1`,
`generate_scores` succeeds with exactly `count` values, all
non-negative (negative samples are clamped to zero and fractional
samples truncated to integers before the clamp). -/
theorem generate_scores_count_nonneg (rng : ScoreRng) (count : Nat) (distribution : String)
    (hd : distribution ∈ ["normal", "skewed", "uniform", "exponential"]) (hc : 1 ≤ count) :
    ∃ l, generate_scores rng count distribution = .ok l ∧
      l.length = count ∧ ∀ v ∈ l, 0 ≤ v := by
  fin_cases hd
  · have hgen : generate_scores rng count "normal" =
        .ok (((List.range count).map rng.normalDraw).map (fun q => max 0 (astype_int q))) :=
      stream_branch_ok count hc rng.normalDraw
    exact ⟨_, hgen, by simp, clamp_nonneg _⟩
  · have hk : max 1 (count / 100) ≤ count :=
      max_le hc (Nat.div_le_self count 100)
    have hlen : ((add_pro_bonuses rng ((List.range count).map rng.expBase)
        (rng.sampleIdx count (max 1 (count / 100))) 0).map
          (fun q => max 0 (astype_int q))).length = count := by
      simp [add_pro_bonuses_length]
    have hne2 : (add_pro_bonuses rng ((List.range count).map rng.expBase)
        (rng.sampleIdx count (max 1 (count / 100))) 0).map
          (fun q => max 0 (astype_int q)) ≠ [] := by
      intro h0
      rw [h0] at hlen
      simp at hlen
      omega
    have hskew : generate_scores rng count "skewed" =
        print_score_stats ((add_pro_bonuses rng ((List.range count).map rng.expBase)
          (rng.sampleIdx count (max 1 (count / 100))) 0).map
            (fun q => max 0 (astype_int q))) := by
      simp only [generate_scores, random_sample, if_pos hk]
      rfl
    have hgen : generate_scores rng count "skewed" =
        .ok ((add_pro_bonuses rng ((List.range count).map rng.expBase)
          (rng.sampleIdx count (max 1 (count / 100))) 0).map
            (fun q => max 0 (astype_int q))) := by
      rw [hskew, print_score_stats_ok _ hne2]
    exact ⟨_, hgen, hlen, clamp_nonneg _⟩
  · have hgen : generate_scores rng count "uniform" =
        .ok (((List.range count).map rng.uniformDraw).map (fun q => max 0 (astype_int q))) :=
      stream_branch_ok count hc rng.uniformDraw
    exact ⟨_, hgen, by simp, clamp_nonneg _⟩
  · have hgen : generate_scores rng count "exponential" =
        .ok (((List.range count).map rng.expDraw).map (fun q => max 0 (astype_int q))) :=
      stream_branch_ok count hc rng.expDraw
    exact ⟨_, hgen, by simp, clamp_nonneg _⟩

/-- `generate_scores` evaluated at a concrete generator stream, count 2
and the normal distribution. -/
theorem generate_scores_count_nonneg_witness :
    ∃ l, generate_scores zeroScoreRng 2 "normal" = .ok l ∧
      l.length = 2 ∧ ∀ v ∈ l, 0 ≤ v :=
  generate_scores_count_nonneg zeroScoreRng 2 "normal" (by simp) (by omega)

/-- C3 fails on the code for every supported kind at `count = 0`: the
`skewed` branch raises in the pro-player step, which requests
`max(1, 0 / 100) = 1` sample indices from the empty range, and the
other three branches raise when the statistics print block reduces the
empty converted array with `np.min`. -/
theorem generate_scores_zero_raises :
    generate_scores zeroScoreRng 0 "normal" =
      .error "zero-size array to reduction operation minimum which has no identity" ∧
    generate_scores zeroScoreRng 0 "skewed" =
      .error "Sample larger than population or is negative" ∧
    generate_scores zeroScoreRng 0 "uniform" =
      .error "zero-size array to reduction operation minimum which has no identity" ∧
    generate_scores zeroScoreRng 0 "exponential" =
      .error "zero-size array to reduction operation minimum which has no identity" :=
  ⟨rfl, rfl, rfl, rfl⟩

/-- C3 (amended): for every supported distribution kind,
`generate_scores` with `count = 0` raises instead of returning an empty
sequence: `skewed` fails in the pro-player sampling step, and the
remaining kinds fail in the statistics print block, whose `np.min`
reduction has no identity on a zero-size array. -/
theorem generate_scores_zero_fails (rng : ScoreRng) (distribution : String)
    (hd : distribution ∈ ["normal", "skewed", "uniform", "exponential"]) :
    ∃ msg, generate_scores rng 0 distribution = .error msg := by
  fin_cases hd
  · exact ⟨_, rfl⟩
  · exact ⟨_, rfl⟩
  · exact ⟨_, rfl⟩
  · exact ⟨_, rfl⟩

/-- The amended empty-count behaviour evaluated at a concrete stream. -/
theorem generate_scores_zero_fails_witness :
    ∃ msg, generate_scores zeroScoreRng 0 "normal" = .error msg :=
  generate_scores_zero_fails zeroScoreRng "normal" (by simp)

/-- C10: the i-th leaderboard row pairs the i-th score with user id
`i + 1` (purely positional association assuming sequential ids from 1),
and carries a play count in `[1, 100]`. -/
theorem leaderboard_rows_positional (games : Nat → Nat) (scores : List ℤ)
    (hg : ∀ i, 1 ≤ games i ∧ games i ≤ 100) (i : Nat) (hi : i < scores.length) :
    (insert_leaderboard_rows games scores).length = scores.length ∧
    (insert_leaderboard_rows games scores)[i]? = some (i + 1, scores.getD i 0, games i) ∧
    1 ≤ games i ∧ games i ≤ 100 := by
  refine ⟨by simp [insert_leaderboard_rows], ?_, (hg i).1, (hg i).2⟩
  simp [insert_leaderboard_rows, List.enum, List.getElem?_enumFrom,
    List.getElem?_eq_getElem hi, List.getD_eq_getElem?_getD]

/-- The row construction evaluated at a concrete score list and play
counts. -/
theorem leaderboard_rows_positional_witness :
    (insert_leaderboard_rows (fun _ => 7) [600, 500]).length = 2 ∧
    (insert_leaderboard_rows (fun _ => 7) [600, 500])[1]? = some (2, 500, 7) ∧
    1 ≤ 7 ∧ 7 ≤ 100 := by
  have h := leaderboard_rows_positional (fun _ => 7) [600, 500]
    (fun _ => ⟨by norm_num, by norm_num⟩) 1 (by decide)
  simpa using h

end Populate

/-! ## Properties of the benchmark harness -/

namespace PerfTest

/-- A fold whose step never touches the `samples` component leaves the
collected timing samples unchanged. -/
lemma foldl_samples {σ α : Type} (g : TesterState σ → α → TesterState σ)
    (hg : ∀ st a, (g st a).samples = st.samples) :
    ∀ (l : List α) (st : TesterState σ), (l.foldl g st).samples = st.samples
  | [], _ => rfl
  | a :: l, st => by rw [List.foldl_cons, foldl_samples g hg l, hg]

/-- C9: `warm_up_queries` leaves the timing-sample sequences of all
operations unchanged for every number of rounds and every behaviour
(success or failure) of its internal queries: no timing sample is
produced during warm-up. -/
theorem warm_up_no_samples {σ : Type} (exec : String → σ → Option σ) (iterations : Nat)
    (st : TesterState σ) :
    (warm_up_queries exec iterations st).samples = st.samples := by
  unfold warm_up_queries
  apply foldl_samples
  intro st' _
  apply foldl_samples
  intro a q
  rfl

/-- C7: whenever the population bounds satisfy `min_user_id ≤
max_user_id`, the per-trial id range is non-empty and contained in the
population range, its upper bound equals `min(max_user_id, user_sample)`
whenever that value does not fall below `min_user_id`, the range check
never raises, and the drawn id lies within the population bounds. -/
theorem trial_user_range (randint : ℤ → ℤ → ℤ)
    (hrand : ∀ lo hi, lo ≤ hi → lo ≤ randint lo hi ∧ randint lo hi ≤ hi)
    (min_user_id max_user_id user_sample : ℤ) (hpop : min_user_id ≤ max_user_id) :
    min_user_id ≤ max_test_user min_user_id max_user_id user_sample ∧
    max_test_user min_user_id max_user_id user_sample ≤ max_user_id ∧
    (min_user_id ≤ min max_user_id user_sample →
      max_test_user min_user_id max_user_id user_sample = min max_user_id user_sample) ∧
    pick_trial_user randint min_user_id max_user_id user_sample =
      .ok (randint min_user_id (max_test_user min_user_id max_user_id user_sample)) ∧
    min_user_id ≤ randint min_user_id (max_test_user min_user_id max_user_id user_sample) ∧
    randint min_user_id (max_test_user min_user_id max_user_id user_sample) ≤ max_user_id := by
  have hb : min_user_id ≤ max_test_user min_user_id max_user_id user_sample ∧
      max_test_user min_user_id max_user_id user_sample ≤ max_user_id := by
    simp only [max_test_user]
    rcases le_or_lt min_user_id (min max_user_id user_sample) with h | h
    · rw [if_neg (not_lt.mpr h)]
      exact ⟨h, min_le_left _ _⟩
    · rw [if_pos h]
      exact ⟨hpop, le_refl _⟩
  have hr := hrand min_user_id _ hb.1
  refine ⟨hb.1, hb.2, ?_, ?_, hr.1, hr.2.trans hb.2⟩
  · intro h
    simp only [max_test_user]
    rw [if_neg (not_lt.mpr h)]
  · simp only [pick_trial_user]
    rw [if_neg (not_lt.mpr hb.1)]

/-- The trial-range computation evaluated at concrete population bounds
1..10 with sample bound 5. -/
theorem trial_user_range_witness :
    1 ≤ max_test_user 1 10 5 ∧
    max_test_user 1 10 5 ≤ 10 ∧
    ((1 : ℤ) ≤ min 10 5 → max_test_user 1 10 5 = min 10 5) ∧
    pick_trial_user (fun lo _ => lo) 1 10 5 = .ok ((fun lo _ => lo) 1 (max_test_user 1 10 5)) ∧
    (1 : ℤ) ≤ (fun lo _ => lo) 1 (max_test_user 1 10 5) ∧
    ((fun lo _ => lo) 1 (max_test_user 1 10 5) : ℤ) ≤ 10 :=
  trial_user_range (fun lo _ => lo) (fun lo _ h => ⟨le_refl lo, h⟩) 1 10 5 (by norm_num)

/-- C2: statistics over an empty successful-duration sample yield the
explicit error value rather than a normal statistics record, and
replacing one operation's sample sequence (for instance by the empty
one) never changes any other operation's statistics entry. -/
theorem empty_sample_error :
    (∀ name, _calculate_statistics [] name = .error "Nessun dato disponibile") ∧
    (∀ (ops : List (String × List ℚ)) (i : Nat) (entry : String × List ℚ) (j : Nat),
      j ≠ i → (run_suite (ops.set i entry))[j]? = (run_suite ops)[j]?) := by
  constructor
  · intro _
    rfl
  · intro ops i entry j hj
    unfold run_suite
    rw [List.map_set, List.getElem?_set_ne (Ne.symm hj)]

/-- The empty-sample failure and suite isolation evaluated at concrete
inputs. -/
theorem empty_sample_error_witness :
    _calculate_statistics [] "UPDATE Score" = .error "Nessun dato disponibile" ∧
    (run_suite ([("a", [1]), ("b", [2])].set 0 ("a", [])))[1]? =
      (run_suite [("a", [1]), ("b", [2])])[1]? :=
  ⟨empty_sample_error.1 "UPDATE Score",
   empty_sample_error.2 [("a", [1]), ("b", [2])] 0 ("a", []) 1 (by decide)⟩

/-- The number of recorded durations plus the number of failures equals
the number of trials attempted, whatever the oracle does. -/
lemma run_trials_count {σ : Type} (step : Nat → σ → Option (ℚ × σ)) :
    ∀ (idxs : List Nat) (s : σ) (times : List ℚ) (failures : Nat),
      (run_trials step idxs s times failures).1.length +
        (run_trials step idxs s times failures).2.2 =
      times.length + failures + idxs.length
  | [], s, times, failures => by simp [run_trials]
  | i :: rest, s, times, failures => by
    rw [run_trials]
    cases h : step i s with
    | none =>
      rw [run_trials_count step rest s times (failures + 1)]
      simp only [List.length_cons]
      omega
    | some ts =>
      obtain ⟨t, s'⟩ := ts
      rw [run_trials_count step rest s' (times ++ [t]) failures]
      simp only [List.length_cons, List.length_append, List.length_singleton,
        List.length_nil]
      omega

/-- A run whose every trial fails records no duration, counts every
trial as a failure, and leaves the database state untouched (each
failed trial is rolled back). -/
lemma run_trials_all_fail {σ : Type} (step : Nat → σ → Option (ℚ × σ))
    (hstep : ∀ i s, step i s = none) :
    ∀ (idxs : List Nat) (s : σ) (times : List ℚ) (failures : Nat),
      run_trials step idxs s times failures = (times, s, failures + idxs.length)
  | [], s, times, failures => by simp [run_trials]
  | i :: rest, s, times, failures => by
    rw [run_trials]
    simp only [hstep]
    rw [run_trials_all_fail step hstep rest]
    have harith : failures + 1 + rest.length = failures + (i :: rest).length := by
      simp only [List.length_cons]
      omega
    rw [harith]

/-- C8: in a run of `iterations` trials with `k` failures, the failed
trials are excluded from the duration sample while the others still
execute, so the statistics carry `sample_size = iterations - k`; a run
of only failing trials leaves the database state untouched (rollback)
and aborts nothing; and altering one operation's trials never changes
another operation's statistics entry. -/
theorem trial_failures_isolated :
    (∀ (σ : Type) (step : Nat → σ → Option (ℚ × σ)) (iterations : Nat) (s0 : σ)
      (name : String),
      (test_operation step iterations s0).1.length +
        (test_operation step iterations s0).2.2 = iterations ∧
      ((test_operation step iterations s0).1 ≠ [] →
        ∃ st, _calculate_statistics (test_operation step iterations s0).1 name = .ok st ∧
          st.sample_size = iterations - (test_operation step iterations s0).2.2)) ∧
    (∀ (σ : Type) (step : Nat → σ → Option (ℚ × σ)) (iterations : Nat) (s0 : σ),
      (∀ i s, step i s = none) →
      test_operation step iterations s0 = ([], s0, iterations)) ∧
    (∀ (σ : Type) (ops : List (String × (Nat → σ → Option (ℚ × σ)))) (iterations : Nat)
      (s0 : σ) (i : Nat) (entry : String × (Nat → σ → Option (ℚ × σ))) (j : Nat),
      j ≠ i →
      (run_ops (ops.set i entry) iterations s0)[j]? = (run_ops ops iterations s0)[j]?) := by
  refine ⟨?_, ?_, ?_⟩
  · intro σ step iterations s0 name
    have hc : (test_operation step iterations s0).1.length +
        (test_operation step iterations s0).2.2 = iterations := by
      have := run_trials_count step (List.range iterations) s0 [] 0
      simpa [test_operation] using this
    refine ⟨hc, ?_⟩
    intro hne
    have hemp : (test_operation step iterations s0).1.isEmpty = false :=
      List.isEmpty_eq_false.mpr hne
    simp only [_calculate_statistics, hemp, Bool.false_eq_true, if_false]
    refine ⟨_, rfl, ?_⟩
    show (test_operation step iterations s0).1.length =
      iterations - (test_operation step iterations s0).2.2
    omega
  · intro σ step iterations s0 hstep
    have := run_trials_all_fail step hstep (List.range iterations) s0 [] 0
    simpa [test_operation] using this
  · intro σ ops iterations s0 i entry j hj
    unfold run_ops
    rw [List.map_set, List.getElem?_set_ne (Ne.symm hj)]

/-- The trial loop evaluated on a concrete oracle that fails every
trial: no sample is recorded, the state is untouched, and all five
trials count as failures. -/
theorem trial_failures_isolated_witness :
    test_operation (fun (_ : Nat) (_ : Unit) => (none : Option (ℚ × Unit))) 5 () =
      ([], (), 5) :=
  trial_failures_isolated.2.1 Unit _ 5 () (fun _ _ => rfl)

end PerfTest

/-! ## Equivalence of the two ranking strategies -/

namespace PerfTest

/-- The rank pass emits exactly the entities of its input, in order. -/
lemma rank_pass_fst : ∀ (l : List Entity) (prev : ℤ) (prevRank pos : Nat),
    (rank_pass prev prevRank pos l).map Prod.fst = l
  | [], _, _, _ => rfl
  | e :: rest, prev, prevRank, pos => by
    rw [rank_pass]
    simp only [List.map_cons]
    rw [rank_pass_fst rest]

/-- The window pass emits exactly the entities of its input, in order. -/
lemma window_ranks_fst (l : List Entity) : (window_ranks l).map Prod.fst = l := by
  cases l with
  | nil => rfl
  | cons e rest => simp only [window_ranks, List.map_cons, rank_pass_fst]

/-- If the find predicate holds for exactly one member, `find?` returns
that member. -/
lemma find?_eq_some_of_unique {α : Type} (l : List α) (p : α → Bool) (a : α)
    (ha : a ∈ l) (hpa : p a = true) (huniq : ∀ x ∈ l, p x = true → x = a) :
    l.find? p = some a := by
  have hsome : (l.find? p).isSome := List.find?_isSome.mpr ⟨a, ha, hpa⟩
  obtain ⟨b, hb⟩ := Option.isSome_iff_exists.mp hsome
  rw [hb, huniq b (List.mem_of_find?_eq_some hb) (List.find?_some hb)]

/-- Core invariant of the tie-sharing pass over a descending list: with
`E` the entities already emitted (all scoring at least `prev`, the
previous row's score), `pos = |E|` the running row number and
`prevRank` one more than the number of emitted rows strictly above
`prev`, every later row receives competition rank `1 +` the number of
strictly-greater scores in the whole population `E ++ l`. -/
lemma rank_pass_spec :
    ∀ (l E : List Entity) (prev : ℤ) (prevRank pos : Nat),
      List.Pairwise byScoreDesc l →
      (∀ x ∈ l, x.score ≤ prev) →
      (∀ x ∈ E, prev ≤ x.score) →
      pos = E.length →
      prevRank = 1 + (E.filter (fun x => decide (prev < x.score))).length →
      ∀ p ∈ rank_pass prev prevRank pos l,
        p.2 = 1 + ((E ++ l).filter (fun x => decide (p.1.score < x.score))).length
  | [], _, _, _, _ => by
    intro _ _ _ _ _ p hp
    cases hp
  | e :: rest, E, prev, prevRank, pos => by
    intro hsort hle hge hpos hrank p hp
    simp only [rank_pass] at hp
    have hEfull : e.score < prev →
        E.filter (fun x => decide (e.score < x.score)) = E := by
      intro hlt
      refine List.filter_eq_self.mpr (fun x hx => ?_)
      simpa using lt_of_lt_of_le hlt (hge x hx)
    have hr : (if e.score = prev then prevRank else pos + 1) =
        1 + (E.filter (fun x => decide (e.score < x.score))).length := by
      by_cases hcase : e.score = prev
      · rw [if_pos hcase, hrank, hcase]
      · have hlt : e.score < prev :=
          lt_of_le_of_ne (hle e (List.mem_cons_self e rest)) hcase
        rw [if_neg hcase, hEfull hlt, hpos]
        omega
    have htail : ∀ x ∈ rest, x.score ≤ e.score := by
      intro x hx
      exact (List.pairwise_cons.mp hsort).1 x hx
    have hheadfilter : (e :: rest).filter (fun x => decide (e.score < x.score)) = [] := by
      refine List.filter_eq_nil_iff.mpr (fun x hx => ?_)
      rcases List.mem_cons.mp hx with rfl | hx'
      · simp
      · simpa using not_lt.mpr (htail x hx')
    rcases List.mem_cons.mp hp with rfl | hp'
    · rw [List.filter_append, hheadfilter, List.append_nil]
      exact hr
    · have hge' : ∀ x ∈ E ++ [e], e.score ≤ x.score := by
        intro x hx
        rcases List.mem_append.mp hx with hx' | hx'
        · exact le_trans (hle e (List.mem_cons_self e rest)) (hge x hx')
        · rcases List.mem_singleton.mp hx' with rfl
          exact le_refl _
      have hrank' : (if e.score = prev then prevRank else pos + 1) =
          1 + ((E ++ [e]).filter (fun x => decide (e.score < x.score))).length := by
        rw [List.filter_append]
        have : [e].filter (fun x => decide (e.score < x.score)) = [] := by simp
        rw [this, List.append_nil]
        exact hr
      have ih := rank_pass_spec rest (E ++ [e]) e.score
        (if e.score = prev then prevRank else pos + 1) (pos + 1)
        hsort.of_cons htail hge' (by simp [hpos]) hrank' p hp'
      rw [ih, List.append_assoc, List.singleton_append]
  termination_by l => l.length

/-- Over a population sorted by descending score, the window pass
assigns every row the competition rank `1 +` the number of
strictly-greater scores. -/
lemma window_ranks_spec (l : List Entity) (hl : List.Pairwise byScoreDesc l) :
    ∀ p ∈ window_ranks l,
      p.2 = 1 + (l.filter (fun x => decide (p.1.score < x.score))).length := by
  cases l with
  | nil =>
    intro p hp
    cases hp
  | cons e rest =>
    intro p hp
    simp only [window_ranks] at hp
    rcases List.mem_cons.mp hp with rfl | hp'
    · have hfilter : (e :: rest).filter (fun x => decide (e.score < x.score)) = [] := by
        refine List.filter_eq_nil_iff.mpr (fun x hx => ?_)
        rcases List.mem_cons.mp hx with rfl | hx'
        · simp
        · simpa using not_lt.mpr ((List.pairwise_cons.mp hl).1 x hx')
      rw [hfilter]
      rfl
    · have ih := rank_pass_spec rest [e] e.score 1 1 hl.of_cons
        (fun x hx => (List.pairwise_cons.mp hl).1 x hx)
        (fun x hx => by rcases List.mem_singleton.mp hx with rfl; exact le_refl _)
        rfl (by simp) p hp'
      rw [List.singleton_append] at ih
      exact ih

/-- C1: for every fixed population snapshot with pairwise-distinct user
ids, the window strategy assigns every active present entity the same
rank as the counting strategy, namely `1 +` the number of active
entities with strictly greater score; in particular, on the example
population with scores 600, 500, 500, 400 both strategies rank the
600-scorer 1st, both 500-scorers 2nd, and the 400-scorer 4th. -/
theorem rank_strategies_agree :
    (∀ (pop : List Entity) (e : Entity),
      (pop.map Entity.user_id).Nodup → e ∈ pop → e.is_active = true →
      rank_by_window pop e.user_id = rank_by_count pop e.user_id ∧
      rank_by_count pop e.user_id = some (1 + activeGreaterCount pop e.score)) ∧
    (rank_by_count examplePop 1 = some 1 ∧ rank_by_count examplePop 2 = some 2 ∧
     rank_by_count examplePop 3 = some 2 ∧ rank_by_count examplePop 4 = some 4 ∧
     rank_by_window examplePop 1 = some 1 ∧ rank_by_window examplePop 2 = some 2 ∧
     rank_by_window examplePop 3 = some 2 ∧ rank_by_window examplePop 4 = some 4) := by
  constructor
  · intro pop e hnodup hmem hact
    have hinj : ∀ x ∈ pop, x.user_id = e.user_id → x = e := fun x hx hxe =>
      List.inj_on_of_nodup_map hnodup hx hmem hxe
    have hfind : pop.find? (fun x => x.user_id == e.user_id && x.is_active) = some e := by
      apply find?_eq_some_of_unique pop _ e hmem
      · simp [hact]
      · intro x hx hpx
        simp only [Bool.and_eq_true, beq_iff_eq] at hpx
        exact hinj x hx hpx.1
    have hcount : rank_by_count pop e.user_id = some (1 + activeGreaterCount pop e.score) := by
      unfold rank_by_count
      rw [hfind]
      rfl
    refine ⟨?_, hcount⟩
    have hpopnd : pop.Nodup := List.Nodup.of_map _ hnodup
    set A := pop.filter (fun x => x.is_active) with hA
    set S := List.insertionSort byScoreDesc A with hS
    have heA : e ∈ A := List.mem_filter.mpr ⟨hmem, by simp [hact]⟩
    have hperm : S.Perm A := List.perm_insertionSort byScoreDesc A
    have heS : e ∈ S := hperm.mem_iff.mpr heA
    have hsorted : List.Pairwise byScoreDesc S := List.sorted_insertionSort byScoreDesc A
    have hSnodup : S.Nodup := hperm.nodup_iff.mpr (hpopnd.filter _)
    have hfst : (window_ranks S).map Prod.fst = S := window_ranks_fst S
    have hrankednd : ((window_ranks S).map Prod.fst).Nodup := by
      rw [hfst]
      exact hSnodup
    have heS' : e ∈ (window_ranks S).map Prod.fst := by
      rw [hfst]
      exact heS
    obtain ⟨p0, hp0mem, hp0fst⟩ := List.mem_map.mp heS'
    have hfindw : (window_ranks S).find? (fun p => p.1.user_id == e.user_id) = some p0 := by
      apply find?_eq_some_of_unique _ _ p0 hp0mem
      · simp [hp0fst]
      · intro q hq hpq
        simp only [beq_iff_eq] at hpq
        have hq1S : q.1 ∈ S := by
          rw [← hfst]
          exact List.mem_map_of_mem Prod.fst hq
        have hq1pop : q.1 ∈ pop := List.mem_of_mem_filter (hperm.mem_iff.mp hq1S)
        have hq1e : q.1 = e := hinj q.1 hq1pop hpq
        exact List.inj_on_of_nodup_map hrankednd hq hp0mem (by rw [hq1e, hp0fst])
    have hval : p0.2 = 1 + (S.filter (fun x => decide (e.score < x.score))).length := by
      have h := window_ranks_spec S hsorted p0 hp0mem
      rw [hp0fst] at h
      exact h
    have hfilterlen : (S.filter (fun x => decide (e.score < x.score))).length =
        (A.filter (fun x => decide (e.score < x.score))).length :=
      (hperm.filter _).length_eq
    have hAfilter : A.filter (fun x => decide (e.score < x.score)) =
        pop.filter (fun x => x.is_active && decide (e.score < x.score)) := by
      rw [hA, List.filter_filter]
      exact List.filter_congr (fun x _ => Bool.and_comm _ _)
    simp only [rank_by_window]
    rw [← hS, hfindw, hcount]
    show some p0.2 = some (1 + activeGreaterCount pop e.score)
    congr 1
    rw [hval, hfilterlen, hAfilter]
    rfl
  · constructor
    · decide
    · constructor
      · decide
      · refine ⟨by decide, by decide, by decide, by decide, by decide, by decide⟩

/-- The two ranking strategies evaluated at a tied entity of the
example population. -/
theorem rank_strategies_agree_witness :
    rank_by_window examplePop 2 = rank_by_count examplePop 2 :=
  (rank_strategies_agree.1 examplePop ⟨2, 500, true⟩ (by decide) (by decide) rfl).1

end PerfTest

/-! ## Properties of the statistics engine -/

namespace PerfTest

/-- A running minimum never exceeds its starting value. -/
lemma foldl_min_le_init : ∀ (l : List ℚ) (a : ℚ), l.foldl min a ≤ a
  | [], a => le_refl a
  | b :: l, a => le_trans (foldl_min_le_init l (min a b)) (min_le_left a b)

/-- A running minimum never exceeds any traversed element. -/
lemma foldl_min_le_mem : ∀ (l : List ℚ) (a x : ℚ), x ∈ l → l.foldl min a ≤ x
  | [], _, _, hx => absurd hx (List.not_mem_nil _)
  | b :: l, a, x, hx => by
    rcases List.mem_cons.mp hx with rfl | hx'
    · exact le_trans (foldl_min_le_init l (min a x)) (min_le_right a x)
    · exact foldl_min_le_mem l (min a b) x hx'

/-- `min(times)` is a lower bound of the sample. -/
lemma listMin_le_mem (l : List ℚ) (x : ℚ) (hx : x ∈ l) : listMin l ≤ x := by
  cases l with
  | nil => cases hx
  | cons t ts =>
    rcases List.mem_cons.mp hx with rfl | hx'
    · exact foldl_min_le_init ts x
    · exact foldl_min_le_mem ts t x hx'

/-- A running maximum never falls below its starting value. -/
lemma init_le_foldl_max : ∀ (l : List ℚ) (a : ℚ), a ≤ l.foldl max a
  | [], a => le_refl a
  | b :: l, a => le_trans (le_max_left a b) (init_le_foldl_max l (max a b))

/-- A running maximum never falls below any traversed element. -/
lemma mem_le_foldl_max : ∀ (l : List ℚ) (a x : ℚ), x ∈ l → x ≤ l.foldl max a
  | [], _, _, hx => absurd hx (List.not_mem_nil _)
  | b :: l, a, x, hx => by
    rcases List.mem_cons.mp hx with rfl | hx'
    · exact le_trans (le_max_right a x) (init_le_foldl_max l (max a x))
    · exact mem_le_foldl_max l (max a b) x hx'

/-- `max(times)` is an upper bound of the sample. -/
lemma mem_le_listMax (l : List ℚ) (x : ℚ) (hx : x ∈ l) : x ≤ listMax l := by
  cases l with
  | nil => cases hx
  | cons t ts =>
    rcases List.mem_cons.mp hx with rfl | hx'
    · exact init_le_foldl_max ts x
    · exact mem_le_foldl_max ts t x hx'

/-- A pointwise lower bound scales to the sum. -/
lemma mul_length_le_sum (l : List ℚ) (m : ℚ) (h : ∀ x ∈ l, m ≤ x) :
    m * l.length ≤ l.sum := by
  induction l with
  | nil => simp
  | cons b l ih =>
    have hb := h b (List.mem_cons_self b l)
    have ihl := ih (fun x hx => h x (List.mem_cons.mpr (Or.inr hx)))
    simp only [List.sum_cons, List.length_cons]
    push_cast
    nlinarith [ihl, hb]

/-- A pointwise upper bound scales to the sum. -/
lemma sum_le_mul_length (l : List ℚ) (M : ℚ) (h : ∀ x ∈ l, x ≤ M) :
    l.sum ≤ M * l.length := by
  induction l with
  | nil => simp
  | cons b l ih =>
    have hb := h b (List.mem_cons_self b l)
    have ihl := ih (fun x hx => h x (List.mem_cons.mpr (Or.inr hx)))
    simp only [List.sum_cons, List.length_cons]
    push_cast
    nlinarith [ihl, hb]

/-- The mean of a non-empty sample is at least its minimum. -/
lemma listMin_le_mean (l : List ℚ) (h : l ≠ []) : listMin l ≤ mean_of l := by
  have hn : (0 : ℚ) < l.length := by
    exact_mod_cast List.length_pos.mpr h
  rw [mean_of, le_div_iff₀ hn]
  exact mul_length_le_sum l (listMin l) (fun x hx => listMin_le_mem l x hx)

/-- The mean of a non-empty sample is at most its maximum. -/
lemma mean_le_listMax (l : List ℚ) (h : l ≠ []) : mean_of l ≤ listMax l := by
  have hn : (0 : ℚ) < l.length := by
    exact_mod_cast List.length_pos.mpr h
  rw [mean_of, div_le_iff₀ hn]
  exact sum_le_mul_length l (listMax l) (fun x hx => mem_le_listMax l x hx)

/-- The shared ascending sort is sorted. -/
lemma sortedTimes_sorted (times : List ℚ) :
    List.Sorted (fun a b => a ≤ b) (sortedTimes times) :=
  List.sorted_insertionSort _ times

/-- Sorting preserves the sample size. -/
lemma sortedTimes_length (times : List ℚ) :
    (sortedTimes times).length = times.length :=
  (List.perm_insertionSort _ times).length_eq

/-- Members of the sorted sample are members of the sample. -/
lemma sortedTimes_mem {times : List ℚ} {x : ℚ} (hx : x ∈ sortedTimes times) :
    x ∈ times :=
  (List.perm_insertionSort _ times).mem_iff.mp hx

/-- Every in-range order statistic belongs to the sample. -/
lemma sortedTimes_getD_mem (times : List ℚ) (i : Nat)
    (hi : i < (sortedTimes times).length) :
    (sortedTimes times).getD i 0 ∈ times := by
  rw [List.getD_eq_getElem?_getD, List.getElem?_eq_getElem hi, Option.getD_some]
  exact sortedTimes_mem (List.getElem_mem hi)

/-- Order statistics of a sorted sample are monotone in the index. -/
lemma sorted_getD_mono {s : List ℚ} (hs : List.Sorted (fun a b => a ≤ b) s)
    {i j : Nat} (hij : i ≤ j) (hj : j < s.length) :
    s.getD i 0 ≤ s.getD j 0 := by
  have hi : i < s.length := lt_of_le_of_lt hij hj
  rw [List.getD_eq_getElem?_getD, List.getElem?_eq_getElem hi, Option.getD_some,
    List.getD_eq_getElem?_getD, List.getElem?_eq_getElem hj, Option.getD_some]
  have h := List.Sorted.rel_get_of_le hs
    (a := ⟨i, hi⟩) (b := ⟨j, hj⟩) (by exact hij)
  simpa using h

end PerfTest

namespace PerfTest

/-- The interpolated value at virtual index `h` lies between the order
statistics at the floor and ceiling indices. -/
lemma interp_bounds {s : List ℚ} (hs : List.Sorted (fun a b => a ≤ b) s) {h : ℚ}
    (h0 : 0 ≤ h) (hceil : (⌈h⌉).toNat < s.length) :
    s.getD (⌊h⌋).toNat 0 ≤ interp s h ∧ interp s h ≤ s.getD (⌈h⌉).toNat 0 := by
  have hfl : (0 : ℤ) ≤ ⌊h⌋ := Int.floor_nonneg.mpr h0
  have hmn : (⌊h⌋).toNat ≤ (⌈h⌉).toNat := Int.toNat_le_toNat (Int.floor_le_ceil h)
  have hab : s.getD (⌊h⌋).toNat 0 ≤ s.getD (⌈h⌉).toNat 0 :=
    sorted_getD_mono hs hmn hceil
  have hcast : (((⌊h⌋).toNat : ℚ)) = ((⌊h⌋ : ℤ) : ℚ) := by
    exact_mod_cast congrArg (fun z : ℤ => (z : ℚ)) (Int.toNat_of_nonneg hfl)
  have f0 : 0 ≤ h - ((⌊h⌋).toNat : ℚ) := by
    rw [hcast]
    exact sub_nonneg.mpr (Int.floor_le h)
  have f1 : h - ((⌊h⌋).toNat : ℚ) ≤ 1 := by
    rw [hcast]
    have := Int.lt_floor_add_one h
    push_cast at this ⊢
    linarith
  unfold interp
  constructor
  · nlinarith [mul_nonneg f0 (sub_nonneg.mpr hab)]
  · nlinarith [mul_le_mul_of_nonneg_right f1 (sub_nonneg.mpr hab)]

/-- Linear interpolation over a sorted sample is monotone in the
virtual index. -/
lemma interp_mono {s : List ℚ} (hs : List.Sorted (fun a b => a ≤ b) s) {h1 h2 : ℚ}
    (h0 : 0 ≤ h1) (h12 : h1 ≤ h2) (hceil : (⌈h2⌉).toNat < s.length) :
    interp s h1 ≤ interp s h2 := by
  have h02 : 0 ≤ h2 := le_trans h0 h12
  have hfl1 : (0 : ℤ) ≤ ⌊h1⌋ := Int.floor_nonneg.mpr h0
  have hfmono : ⌊h1⌋ ≤ ⌊h2⌋ := Int.floor_le_floor h12
  have hcmono : ⌈h1⌉ ≤ ⌈h2⌉ := Int.ceil_le_ceil h12
  have hc1lt : (⌈h1⌉).toNat < s.length :=
    lt_of_le_of_lt (Int.toNat_le_toNat hcmono) hceil
  have hf2lt : (⌊h2⌋).toNat < s.length :=
    lt_of_le_of_lt (Int.toNat_le_toNat (Int.floor_le_ceil h2)) hceil
  rcases le_or_lt ⌈h1⌉ ⌊h2⌋ with hAB | hAB
  · have h1le := (interp_bounds hs h0 hc1lt).2
    have h2ge := (interp_bounds hs h02 hceil).1
    have hmid : s.getD (⌈h1⌉).toNat 0 ≤ s.getD (⌊h2⌋).toNat 0 :=
      sorted_getD_mono hs (Int.toNat_le_toNat hAB) hf2lt
    exact le_trans h1le (le_trans hmid h2ge)
  · have hceil1 := Int.ceil_le_floor_add_one h1
    have hceil2 := Int.ceil_le_floor_add_one h2
    have hfc1 := Int.floor_le_ceil h1
    have hfc2 := Int.floor_le_ceil h2
    have hfeq : ⌊h2⌋ = ⌊h1⌋ := by omega
    have hceq : ⌈h1⌉ = ⌊h1⌋ + 1 := by omega
    have hc2eq : ⌈h2⌉ = ⌊h1⌋ + 1 := by omega
    have hblt : (⌊h1⌋ + 1).toNat < s.length := by
      rw [← hc2eq]
      exact hceil
    have hble : s.getD ((⌊h1⌋).toNat) 0 ≤ s.getD ((⌊h1⌋ + 1).toNat) 0 :=
      sorted_getD_mono hs (Int.toNat_le_toNat (by omega)) hblt
    have hd0 : 0 ≤ s.getD ((⌊h1⌋ + 1).toNat) 0 - s.getD ((⌊h1⌋).toNat) 0 :=
      sub_nonneg.mpr hble
    unfold interp
    rw [hfeq, hceq, hc2eq]
    have hstep := mul_le_mul_of_nonneg_right
      (sub_le_sub_right h12 (((⌊h1⌋).toNat : ℚ))) hd0
    linarith

/-- Interpolating at virtual index 0 yields the smallest order
statistic. -/
lemma interp_zero (s : List ℚ) : interp s 0 = s.getD 0 0 := by
  simp [interp]

/-- The ceiling of the virtual index of `np.percentile` stays within
the sorted sample for any percentile up to 100. -/
lemma percentile_index_lt (times : List ℚ) (hne : times ≠ []) {q : ℚ}
    (_h0 : 0 ≤ q) (h100 : q ≤ 100) :
    (⌈((times.length : ℚ) - 1) * q / 100⌉).toNat < (sortedTimes times).length := by
  have hn1 : 1 ≤ times.length := List.length_pos.mpr hne
  have hnq : (0 : ℚ) ≤ (times.length : ℚ) - 1 := by
    have : (1 : ℚ) ≤ (times.length : ℚ) := by exact_mod_cast hn1
    linarith
  have hh : ((times.length : ℚ) - 1) * q / 100 ≤ (times.length : ℚ) - 1 := by
    rw [div_le_iff₀ (by norm_num : (0 : ℚ) < 100)]
    nlinarith
  have hceil : ⌈((times.length : ℚ) - 1) * q / 100⌉ ≤ (times.length : ℤ) - 1 := by
    rw [Int.ceil_le]
    push_cast
    exact hh
  have htn : (⌈((times.length : ℚ) - 1) * q / 100⌉).toNat ≤ times.length - 1 := by
    omega
  rw [sortedTimes_length]
  omega

/-- The virtual index of `np.percentile` is non-negative for any
non-negative percentile. -/
lemma percentile_index_nonneg (times : List ℚ) (hne : times ≠ []) {q : ℚ}
    (h0 : 0 ≤ q) : 0 ≤ ((times.length : ℚ) - 1) * q / 100 := by
  have hn1 : 1 ≤ times.length := List.length_pos.mpr hne
  have hnq : (0 : ℚ) ≤ (times.length : ℚ) - 1 := by
    have : (1 : ℚ) ≤ (times.length : ℚ) := by exact_mod_cast hn1
    linarith
  positivity

/-- Percentiles are monotone in the requested level. -/
lemma percentile_mono (times : List ℚ) (hne : times ≠ []) {q1 q2 : ℚ}
    (h0 : 0 ≤ q1) (h12 : q1 ≤ q2) (h100 : q2 ≤ 100) :
    percentile times q1 ≤ percentile times q2 := by
  have hn1 : 1 ≤ times.length := List.length_pos.mpr hne
  have hnq : (0 : ℚ) ≤ (times.length : ℚ) - 1 := by
    have : (1 : ℚ) ≤ (times.length : ℚ) := by exact_mod_cast hn1
    linarith
  unfold percentile
  apply interp_mono (sortedTimes_sorted times)
  · exact percentile_index_nonneg times hne h0
  · have hmul : ((times.length : ℚ) - 1) * q1 ≤ ((times.length : ℚ) - 1) * q2 :=
      mul_le_mul_of_nonneg_left h12 hnq
    linarith
  · exact percentile_index_lt times hne (le_trans h0 h12) h100

/-- Every percentile up to 100 is bounded by the sample maximum. -/
lemma percentile_le_listMax (times : List ℚ) (hne : times ≠ []) {q : ℚ}
    (h0 : 0 ≤ q) (h100 : q ≤ 100) : percentile times q ≤ listMax times := by
  have hidx := percentile_index_lt times hne h0 h100
  have hbound := (interp_bounds (sortedTimes_sorted times)
    (percentile_index_nonneg times hne h0) hidx).2
  refine le_trans hbound ?_
  exact mem_le_listMax times _ (sortedTimes_getD_mem times _ hidx)

/-- The median of a non-empty sample lies between the sample minimum
and maximum. -/
lemma median_between (times : List ℚ) (hne : times ≠ []) :
    listMin times ≤ median_of times ∧ median_of times ≤ listMax times := by
  have hn1 : 1 ≤ times.length := List.length_pos.mpr hne
  have hlen := sortedTimes_length times
  unfold median_of
  by_cases hodd : (sortedTimes times).length % 2 = 1
  · rw [if_pos hodd]
    have hi : (sortedTimes times).length / 2 < (sortedTimes times).length := by omega
    have hmem := sortedTimes_getD_mem times _ hi
    exact ⟨listMin_le_mem _ _ hmem, mem_le_listMax _ _ hmem⟩
  · rw [if_neg hodd]
    have h2 : 2 ≤ (sortedTimes times).length := by omega
    have hi1 : (sortedTimes times).length / 2 - 1 < (sortedTimes times).length := by omega
    have hi2 : (sortedTimes times).length / 2 < (sortedTimes times).length := by omega
    have hm1 := sortedTimes_getD_mem times _ hi1
    have hm2 := sortedTimes_getD_mem times _ hi2
    constructor
    · have a1 := listMin_le_mem times _ hm1
      have a2 := listMin_le_mem times _ hm2
      linarith
    · have a1 := mem_le_listMax times _ hm1
      have a2 := mem_le_listMax times _ hm2
      linarith

end PerfTest

namespace PerfTest

/-- C6: for every non-empty duration sample the computed statistics
satisfy `min ≤ median ≤ max`, `min ≤ mean ≤ max` and `p95 ≤ p99 ≤ max`;
for a singleton sample the standard deviation is zero and min, max,
mean, median, p95 and p99 all coincide. -/
theorem statistics_order_invariants (times : List ℚ) (name : String) (hne : times ≠ []) :
    ∃ st, _calculate_statistics times name = .ok st ∧
      st.min_ms ≤ st.median_ms ∧ st.median_ms ≤ st.max_ms ∧
      st.min_ms ≤ st.mean_ms ∧ st.mean_ms ≤ st.max_ms ∧
      st.p95_ms ≤ st.p99_ms ∧ st.p99_ms ≤ st.max_ms ∧
      (times.length = 1 →
        st.stdev_ms = 0 ∧ st.min_ms = st.max_ms ∧ st.min_ms = st.mean_ms ∧
        st.min_ms = st.median_ms ∧ st.min_ms = st.p95_ms ∧ st.min_ms = st.p99_ms) := by
  have hemp : times.isEmpty = false := List.isEmpty_eq_false.mpr hne
  simp only [_calculate_statistics, hemp, Bool.false_eq_true, if_false]
  refine ⟨_, rfl, ?_, ?_, ?_, ?_, ?_, ?_, ?_⟩
  · exact (median_between times hne).1
  · exact (median_between times hne).2
  · exact listMin_le_mean times hne
  · exact mean_le_listMax times hne
  · exact percentile_mono times hne (by norm_num) (by norm_num) (by norm_num)
  · exact percentile_le_listMax times hne (by norm_num) (by norm_num)
  · intro h1
    obtain ⟨x, rfl⟩ := List.length_eq_one.mp h1
    refine ⟨?_, rfl, ?_, ?_, ?_, ?_⟩
    · show (if 1 < ([x] : List ℚ).length then Real.sqrt ((variance_of [x] : ℚ) : ℝ)
        else 0) = 0
      rw [if_neg (by norm_num)]
    · show listMin [x] = mean_of [x]
      simp [listMin, mean_of]
    · show listMin [x] = median_of [x]
      have hmed : median_of [x] = x := by simp [median_of, sortedTimes]
      rw [hmed]
      rfl
    · show listMin [x] = percentile [x] 95
      have h95 : ((([x] : List ℚ).length : ℚ) - 1) * 95 / 100 = 0 := by norm_num
      unfold percentile
      rw [h95, interp_zero]
      rfl
    · show listMin [x] = percentile [x] 99
      have h99 : ((([x] : List ℚ).length : ℚ) - 1) * 99 / 100 = 0 := by norm_num
      unfold percentile
      rw [h99, interp_zero]
      rfl

/-- The statistics invariants evaluated on the singleton sample `[5]`. -/
theorem statistics_order_invariants_witness :
    ∃ st, _calculate_statistics [5] "UPDATE Score" = .ok st ∧
      st.min_ms ≤ st.median_ms ∧ st.median_ms ≤ st.max_ms ∧
      st.min_ms ≤ st.mean_ms ∧ st.mean_ms ≤ st.max_ms ∧
      st.p95_ms ≤ st.p99_ms ∧ st.p99_ms ≤ st.max_ms ∧
      (([5] : List ℚ).length = 1 →
        st.stdev_ms = 0 ∧ st.min_ms = st.max_ms ∧ st.min_ms = st.mean_ms ∧
        st.min_ms = st.median_ms ∧ st.min_ms = st.p95_ms ∧ st.min_ms = st.p99_ms) :=
  statistics_order_invariants [5] "UPDATE Score" (by decide)

end PerfTest
